import Mathlib

/-!
# Verification of the Data Folder Builder (`src/build_data_folder.py`)

A shallow embedding of the merge planner and materializer of the
Steamdeck Bethesda Modding Tool.  Pure string manipulation is embedded
directly; filesystem interaction (`os.path.exists`, `os.walk`,
`os.path.getsize`, `os.link`) is modelled by explicit finite oracles
(`FS`, `LinkEnv`) passed to every function that touches the disk, and
the in-place Python `dict` is modelled by an association list with
Python's update-in-place / append-new-key semantics.

String operations (`str.lower`, `str.isupper`, `str.strip`,
`str.split`) are embedded character-wise over `String.data`; they agree
with Python on ASCII, which is the range the tool's path handling is
designed for.  `os.sep` is fixed to `'/'` (the tool targets Linux).
-/

/-- Character-wise lowercasing, the embedding of Python `str.lower()`. -/
def str_lower (s : String) : String :=
  String.mk (s.data.map Char.toLower)

/-- Whitespace test used by the embedding of Python `str.strip()`. -/
def isStripChar (c : Char) : Bool :=
  c == ' ' || c == '\t' || c == '\n' || c == '\r' || c == '\x0b' || c == '\x0c'

/-- Embedding of Python `str.strip()`: drop leading and trailing whitespace. -/
def str_strip (s : String) : String :=
  String.mk (((s.data.dropWhile isStripChar).reverse.dropWhile isStripChar).reverse)

/-- Embedding of Python `line.startswith(c)` for a one-character prefix. -/
def startsWithChar (s : String) (c : Char) : Bool :=
  match s.data with
  | [] => false
  | x :: _ => x == c

/-- Embedding of Python `line[1:]`. -/
def str_dropFirst (s : String) : String :=
  String.mk (s.data.drop 1)

/-- Split a character list at every occurrence of `c`
(the list-level core of Python `str.split(sep)` for a one-character separator). -/
def splitOnCharList (c : Char) : List Char → List (List Char)
  | [] => [[]]
  | x :: xs =>
    let r := splitOnCharList c xs
    if x = c then [] :: r
    else
      match r with
      | [] => [[x]]
      | y :: ys => (x :: y) :: ys

/-- Embedding of Python `path.split(os.sep)` with `os.sep = '/'`. -/
def splitPath (p : String) : List String :=
  (splitOnCharList '/' p.data).map String.mk

/-- Join path segments with `'/'`, the embedding of
`os.path.join(*parts)` / `os.sep.join(parts)` for relative segments. -/
def joinPath : List String → String
  | [] => ""
  | [s] => s
  | s :: t :: ts => s ++ "/" ++ joinPath (t :: ts)

/-- Does the string end with the path separator? -/
def endsWithSlash (s : String) : Bool :=
  match s.data.getLast? with
  | some c => c == '/'
  | none => false

/-- Embedding of `os.path.join(a, b)` for a relative second component. -/
def osJoin (a b : String) : String :=
  if a = "" then b
  else if endsWithSlash a then a ++ b
  else a ++ "/" ++ b

/-- Association-list lookup: the embedding of Python `dict` reads
(`d[k]`, `k in d`). -/
def lookupKey {α β : Type} [DecidableEq α] (k : α) : List (α × β) → Option β
  | [] => none
  | (k', v) :: rest => if k' = k then some v else lookupKey k rest

/-- Association-list write: the embedding of Python `d[k] = v`
(update in place when the key exists, append otherwise). -/
def setKey {α β : Type} [DecidableEq α] (m : List (α × β)) (k : α) (v : β) :
    List (α × β) :=
  match m with
  | [] => [(k, v)]
  | (k', v') :: rest => if k' = k then (k, v) :: rest else (k', v') :: setKey rest k v

/-- Finite filesystem oracle: the disk as the build observes it during
the scan/fold phase.  `existing` lists the paths for which
`os.path.exists` answers true, `walks` gives the relative file paths
`os.walk` yields under a root, `dirWalks` gives the stream of directory
names (both `dirs` entries and `rel_root` components) recorded while
walking a root, and `sizes` gives `os.path.getsize` results (a missing
entry models an `OSError`). -/
structure FS where
  existing : List String
  walks : List (String × List String)
  dirWalks : List (String × List String)
  sizes : List (String × Nat)

def FS.pathExists (fs : FS) (p : String) : Bool :=
  fs.existing.contains p

def FS.walkFiles (fs : FS) (root : String) : List String :=
  (lookupKey root fs.walks).getD []

def FS.walkDirNames (fs : FS) (root : String) : List String :=
  (lookupKey root fs.dirWalks).getD []

/-- `os.path.getsize(p) if os.path.exists(p) else 0`, with the
surrounding `except OSError: 0` handler. -/
def sizeOrZero (fs : FS) (p : String) : Nat :=
  if fs.pathExists p then (lookupKey p fs.sizes).getD 0 else 0

/-- One line of `modlist.txt`: strip, skip blanks, skip `-` (disabled),
accept `+` (enabled, name is the rest stripped); anything else is
ignored.  Embeds the loop body of `parse_modlist`. -/
def parse_modlist_line (line : String) : Option String :=
  let l := str_strip line
  if l.data = [] then none
  else if startsWithChar l '-' then none
  else if startsWithChar l '+' then some (str_strip (str_dropFirst l))
  else none

/-- `parse_modlist`: the file's lines are reversed (bottom to top) and
the enabled names collected in that order.  (The Python function reads
the file itself and exits if it is missing; the embedding takes the
line list directly, the existence check being at the OS boundary.) -/
def parse_modlist (lines : List String) : List String :=
  lines.reverse.filterMap parse_modlist_line

/-- `count_uppercase`: number of uppercase letters in a string. -/
def count_uppercase (s : String) : Nat :=
  (s.data.filter Char.isUpper).length

/-- `get_match_key`: fully lowercase path for case-insensitive matching. -/
def get_match_key (original_path : String) : String :=
  str_lower original_path

/-- `scan_mod_files`: a missing root yields `[]`; otherwise every walked
relative path is paired with its lowercase match key. -/
def scan_mod_files (fs : FS) (mod_path : String) : List (String × String) :=
  if fs.pathExists mod_path then
    (fs.walkFiles mod_path).map (fun p => (p, get_match_key p))
  else []

/-- Record one observed directory spelling into the variant dictionary:
bucket key is the lowercased spelling, the bucket is a set (membership
test before insertion models the Python `set.add`). -/
def addVariant (vm : List (String × List String)) (d : String) :
    List (String × List String) :=
  match vm with
  | [] => [(str_lower d, [d])]
  | (k, vs) :: rest =>
    if k = str_lower d then
      (k, if vs.contains d then vs else vs ++ [d]) :: rest
    else (k, vs) :: addVariant rest d

/-- `scan_folder_for_variants`: a missing root leaves the variant
dictionary untouched; otherwise every directory name observed while
walking the root is recorded.  (The Python function mutates the dict in
place; the embedding returns the updated dict.) -/
def scan_folder_for_variants (fs : FS) (folder_path : String)
    (folder_variants : List (String × List String)) : List (String × List String) :=
  if fs.pathExists folder_path then
    (fs.walkDirNames folder_path).foldl addVariant folder_variants
  else folder_variants

/-- `collect_all_folders`: scan every enabled mod, then the overwrite
folder when present. -/
def collect_all_folders (fs : FS) (lines : List String) (mods_folder : String)
    (overwrite_folder : Option String) : List (String × List String) :=
  let enabled_mods := parse_modlist lines
  let vm := enabled_mods.foldl
    (fun vm mod_name => scan_folder_for_variants fs (osJoin mods_folder mod_name) vm) []
  match overwrite_folder with
  | some ow => if fs.pathExists ow then scan_folder_for_variants fs ow vm else vm
  | none => vm

/-- Python `max(variants, key=lambda v: (count_uppercase(v), v))`:
replace the running maximum exactly when the candidate's key is
strictly greater under the lexicographic (count, string) order. -/
def variant_better (x acc : String) : Bool :=
  decide (count_uppercase acc < count_uppercase x) ||
    (decide (count_uppercase x = count_uppercase acc) && decide (acc < x))

def max_variant (v : String) (vs : List String) : String :=
  vs.foldl (fun acc x => if variant_better x acc then x else acc) v

/-- The per-bucket choice of `build_folder_name_map`: a singleton bucket
uses its sole member (`next(iter(variants))`), a larger bucket uses the
keyed maximum. -/
def choose_variant : List String → Option String
  | [] => none
  | [v] => some v
  | v :: vs => some (max_variant v vs)

/-- `build_folder_name_map`: lowercase name to best variant. -/
def build_folder_name_map (folder_variants : List (String × List String)) :
    List (String × String) :=
  folder_variants.filterMap (fun kv => (choose_variant kv.2).map (fun b => (kv.1, b)))

/-- Rewrite of the directory segments of a split path: all but the last
segment go through the folder map (original kept when the lowercase key
is absent), the last segment (the filename) is untouched. -/
def normalize_segments (folder_map : List (String × String)) : List String → List String
  | [] => []
  | [f] => [f]
  | d :: e :: rest =>
    ((lookupKey (str_lower d) folder_map).getD d) :: normalize_segments folder_map (e :: rest)

/-- `normalize_path_with_map`: split on `os.sep`; a bare filename
(single segment) is returned verbatim, otherwise directory segments are
canonicalized and rejoined with the filename. -/
def normalize_path_with_map (original_path : String)
    (folder_map : List (String × String)) : String :=
  match splitPath original_path with
  | [] => original_path
  | [_] => original_path
  | p :: ps => joinPath (normalize_segments folder_map (p :: ps))

/-- One record of the filemap: `(mod_name, original_path_in_mod,
normalized_dest_path, full_source_path)`. -/
structure FileEntry where
  mod_name : String
  original_path : String
  normalized_path : String
  full_source : String
deriving DecidableEq

/-- Mutable state of the fold phase of `build_data_folder`
(steps 3 and 4): the filemap plus every override counter. -/
structure FoldState where
  filemap : List (String × FileEntry)
  overrides : Nat
  size_overridden : Nat
  overwrite_count : Nat
  overwrite_overrides : Nat
  shadercache_skipped : Nat
  size_overridden_by_overwrite : Nat
deriving DecidableEq

def initFoldState : FoldState :=
  { filemap := [], overrides := 0, size_overridden := 0, overwrite_count := 0,
    overwrite_overrides := 0, shadercache_skipped := 0,
    size_overridden_by_overwrite := 0 }

/-- Step 3 inner loop body: fold one `(original_path, match_key)` pair of
an ordinary mod into the filemap, counting the override and the
displaced size when the key was already present. -/
def processModFile (fs : FS) (folder_map : List (String × String))
    (mod_name mod_path : String) (st : FoldState) (pm : String × String) : FoldState :=
  let original_path := pm.1
  let match_key := pm.2
  let full_source := osJoin mod_path original_path
  let normalized_path := normalize_path_with_map original_path folder_map
  let st1 :=
    match lookupKey match_key st.filemap with
    | some old =>
      let old_size := sizeOrZero fs old.full_source
      { st with size_overridden := st.size_overridden + old_size,
                overrides := st.overrides + 1 }
    | none => st
  { st1 with
    filemap := setKey st1.filemap match_key
      ⟨mod_name, original_path, normalized_path, full_source⟩ }

/-- Step 3 outer loop body: a missing mod folder is skipped with a
warning, otherwise every scanned file is folded in. -/
def processMod (fs : FS) (folder_map : List (String × String)) (mods_folder : String)
    (st : FoldState) (mod_name : String) : FoldState :=
  let mod_path := osJoin mods_folder mod_name
  if fs.pathExists mod_path then
    (scan_mod_files fs mod_path).foldl (processModFile fs folder_map mod_name mod_path) st
  else st

/-- The ShaderCache skip test of step 4: first path segment,
lowercased, equals `"shadercache"` (an empty split, which cannot occur,
would fall through to the fold, like Python's truthiness test). -/
def firstSegIsShaderCache (p : String) : Bool :=
  match splitPath p with
  | [] => false
  | s :: _ => str_lower s == "shadercache"

/-- Step 4 loop body: fold one overwrite-folder file.  ShaderCache
files are only counted as skipped; other files are folded with the
`"[OVERWRITE]"` sentinel as winning source, tracking overlay-specific
override count/bytes and also feeding the grand overridden-bytes total. -/
def processOverwriteFile (fs : FS) (folder_map : List (String × String))
    (overwrite_folder : String) (st : FoldState) (pm : String × String) : FoldState :=
  let original_path := pm.1
  let match_key := pm.2
  if firstSegIsShaderCache original_path then
    { st with shadercache_skipped := st.shadercache_skipped + 1 }
  else
    let full_source := osJoin overwrite_folder original_path
    let normalized_path := normalize_path_with_map original_path folder_map
    let st1 :=
      match lookupKey match_key st.filemap with
      | some old =>
        let old_size := sizeOrZero fs old.full_source
        { st with
          size_overridden_by_overwrite := st.size_overridden_by_overwrite + old_size,
          size_overridden := st.size_overridden + old_size,
          overwrite_overrides := st.overwrite_overrides + 1 }
      | none => st
    { st1 with
      filemap := setKey st1.filemap match_key
        ⟨"[OVERWRITE]", original_path, normalized_path, full_source⟩,
      overwrite_count := st1.overwrite_count + 1 }

/-- Step 3: fold all enabled mods, lowest priority first. -/
def ordinary_fold (fs : FS) (folder_map : List (String × String))
    (mods_folder : String) (enabled_mods : List String) : FoldState :=
  enabled_mods.foldl (processMod fs folder_map mods_folder) initFoldState

/-- Step 4: fold the overwrite folder when it exists. -/
def overlay_fold (fs : FS) (folder_map : List (String × String))
    (overwrite_folder : String) (st : FoldState) : FoldState :=
  if fs.pathExists overwrite_folder then
    (scan_mod_files fs overwrite_folder).foldl
      (processOverwriteFile fs folder_map overwrite_folder) st
  else st

/-- The filemap-building phase of `build_data_folder` (steps 1-4):
parse the modlist, build the canonical folder map, fold the ordinary
mods in priority order, then the overwrite folder. -/
def build_filemap (fs : FS) (lines : List String) (mods_folder : String)
    (overwrite_folder : Option String) : FoldState :=
  let folder_map := build_folder_name_map
    (collect_all_folders fs lines mods_folder overwrite_folder)
  let st := ordinary_fold fs folder_map mods_folder (parse_modlist lines)
  match overwrite_folder with
  | some ow => overlay_fold fs folder_map ow st
  | none => st

/-- Link-time filesystem oracle for the materializer (step 7):
`sourceExisting` answers `os.path.exists` at link time (a path missing
here but present in the scan-time `FS` models the TOCTOU window),
`linkErrors` gives the error text when `os.link(src, dst)` fails, and
`sizes` gives link-time `os.path.getsize` results. -/
structure LinkEnv where
  sourceExisting : List String
  linkErrors : List ((String × String) × String)
  sizes : List (String × Nat)

def LinkEnv.sourceExists (env : LinkEnv) (p : String) : Bool :=
  env.sourceExisting.contains p

/-- Remove every occurrence of a path: the effect of `os.remove` on the
set of existing destination files. -/
def removeAll (l : List String) (x : String) : List String :=
  l.filter (fun q => q != x)

/-- Accumulated state of the materialization pass (step 7), including
the set of files currently present under the output root. -/
structure MatState where
  created : Nat
  failed : Nat
  size_linked : Nat
  size_failed : Nat
  failed_files : List (String × String × String × Nat)
  destFiles : List String
deriving DecidableEq

/-- Step 7 loop body for one filemap entry, in source order: compute
the destination, take the file size (0 when the origin is missing or
stat fails), then inside the `try` block remove any pre-existing
destination file, verify the origin still exists (raising
`FileNotFoundError` otherwise), and hardlink.  Any failure is caught:
it increments the failed counters and records
`(origin, destination, error text, size)`, and the loop continues.
Directory creation (`os.makedirs`) is modelled as always succeeding. -/
def materializeEntry (env : LinkEnv) (output_dir : String) (st : MatState)
    (kv : String × FileEntry) : MatState :=
  let e := kv.2
  let dest_file := osJoin output_dir e.normalized_path
  let file_size :=
    if env.sourceExists e.full_source then (lookupKey e.full_source env.sizes).getD 0 else 0
  let dest1 :=
    if st.destFiles.contains dest_file then removeAll st.destFiles dest_file
    else st.destFiles
  if env.sourceExists e.full_source then
    match lookupKey (e.full_source, dest_file) env.linkErrors with
    | none =>
      { st with destFiles := dest_file :: dest1,
                created := st.created + 1,
                size_linked := st.size_linked + file_size }
    | some err =>
      { st with destFiles := dest1,
                failed := st.failed + 1,
                size_failed := st.size_failed + file_size,
                failed_files := st.failed_files ++ [(e.full_source, dest_file, err, file_size)] }
  else
    { st with destFiles := dest1,
              failed := st.failed + 1,
              size_failed := st.size_failed + file_size,
              failed_files := st.failed_files ++
                [(e.full_source, dest_file,
                  "Source file not found: " ++ e.full_source, file_size)] }

/-- Step 7: materialize every entry of the frozen filemap, starting
from an output root that may already hold `initialDest` files. -/
def materialize (env : LinkEnv) (output_dir : String) (initialDest : List String)
    (entries : List (String × FileEntry)) : MatState :=
  entries.foldl (materializeEntry env output_dir)
    { created := 0, failed := 0, size_linked := 0, size_failed := 0,
      failed_files := [], destFiles := initialDest }

/-- Embedding of `os.path.basename` (posix): everything after the last
separator. -/
def basename (p : String) : String :=
  (splitPath p).getLast?.getD ""

/-- Embedding of Python `s.rstrip(os.sep)`. -/
def rstripSep (s : String) : String :=
  String.mk (s.data.reverse.dropWhile (fun c => c == '/')).reverse

/-- Outcome of the output-path handling of `main`: either the hard stop
`sys.exit(1)` of the safety check, or proceeding to the (possibly
destructive) build with the resolved output path. -/
inductive MainAction where
  | exitError : MainAction
  | proceed : String → MainAction
deriving DecidableEq

/-- `main`'s resolution of `args.output`: default to `script_dir/Data`;
for a user-supplied path whose base name is not case-insensitively
`Data`, append a `Data` component. -/
def resolve_output (userOutput : Option String) (script_dir : String) : String :=
  match userOutput with
  | none => osJoin script_dir "Data"
  | some o =>
    if str_lower (basename (rstripSep o)) ≠ "data" then osJoin o "Data" else o

/-- `main`'s safety gate: after resolution, refuse (exit non-zero,
before any deletion or materialization) unless the output base name is
case-insensitively `Data`. -/
def output_safety (userOutput : Option String) (script_dir : String) : MainAction :=
  let output := resolve_output userOutput script_dir
  if str_lower (basename (rstripSep output)) = "data" then .proceed output
  else .exitError

/-! ## Basic lemmas about the embedding's containers and string helpers -/

theorem lookupKey_mem {α β : Type} [DecidableEq α] {k : α} {v : β} :
    ∀ {m : List (α × β)}, lookupKey k m = some v → (k, v) ∈ m := by
  intro m
  induction m with
  | nil => intro h; simp [lookupKey] at h
  | cons kv rest ih =>
    intro h
    obtain ⟨k', v'⟩ := kv
    by_cases hk : k' = k
    · subst hk
      simp [lookupKey] at h
      simp [h]
    · simp [lookupKey, hk] at h
      exact List.mem_cons_of_mem _ (ih h)

theorem lookupKey_setKey_self {α β : Type} [DecidableEq α] (m : List (α × β))
    (k : α) (v : β) : lookupKey k (setKey m k v) = some v := by
  induction m with
  | nil => simp [setKey, lookupKey]
  | cons kv rest ih =>
    obtain ⟨k', v'⟩ := kv
    by_cases hk : k' = k
    · subst hk; simp [setKey, lookupKey]
    · simp [setKey, lookupKey, hk, ih]

theorem lookupKey_setKey_ne {α β : Type} [DecidableEq α] (m : List (α × β))
    {k k' : α} (v : β) (h : k' ≠ k) :
    lookupKey k' (setKey m k v) = lookupKey k' m := by
  induction m with
  | nil =>
    have hne : k ≠ k' := fun e => h e.symm
    simp [setKey, lookupKey, hne]
  | cons kv rest ih =>
    obtain ⟨k₀, v₀⟩ := kv
    by_cases hk : k₀ = k
    · subst hk
      have hne : k₀ ≠ k' := fun e => h e.symm
      simp [setKey, lookupKey, hne]
    · simp [setKey, lookupKey, hk, ih]

theorem lookupKey_setKey_cases {α β : Type} [DecidableEq α] {m : List (α × β)}
    {k k' : α} {v e : β} (h : lookupKey k' (setKey m k v) = some e) :
    (k' = k ∧ e = v) ∨ (k' ≠ k ∧ lookupKey k' m = some e) := by
  by_cases hk : k' = k
  · subst hk
    rw [lookupKey_setKey_self] at h
    exact Or.inl ⟨rfl, (Option.some_injective _ h).symm⟩
  · rw [lookupKey_setKey_ne m v hk] at h
    exact Or.inr ⟨hk, h⟩

theorem str_lower_append (s t : String) :
    str_lower (s ++ t) = str_lower s ++ str_lower t := by
  cases s with
  | mk a =>
    cases t with
    | mk b =>
      show String.mk ((a ++ b).map Char.toLower)
        = String.mk (a.map Char.toLower ++ b.map Char.toLower)
      rw [List.map_append]

theorem str_lower_joinPath (l : List String) :
    str_lower (joinPath l) = joinPath (l.map str_lower) := by
  induction l with
  | nil => rfl
  | cons s t ih =>
    cases t with
    | nil => rfl
    | cons u us =>
      show str_lower (s ++ "/" ++ joinPath (u :: us))
        = str_lower s ++ "/" ++ joinPath ((u :: us).map str_lower)
      rw [str_lower_append, str_lower_append, ← ih]
      rfl

theorem splitOnCharList_ne_nil (c : Char) (l : List Char) :
    splitOnCharList c l ≠ [] := by
  induction l with
  | nil => simp [splitOnCharList]
  | cons x xs ih =>
    by_cases hx : x = c
    · simp [splitOnCharList, hx]
    · simp only [splitOnCharList, if_neg hx]
      cases h : splitOnCharList c xs with
      | nil => simp
      | cons y ys => simp

/-- Character-level join, the inverse of `splitOnCharList`. -/
def joinChars (c : Char) : List (List Char) → List Char
  | [] => []
  | [s] => s
  | s :: t :: ts => s ++ c :: joinChars c (t :: ts)

theorem splitOnCharList_cons_self (c : Char) (xs : List Char) :
    splitOnCharList c (c :: xs) = [] :: splitOnCharList c xs := by
  simp [splitOnCharList]

theorem splitOnCharList_cons_ne (c x : Char) (xs : List Char) (hx : ¬ x = c)
    {y : List Char} {ys : List (List Char)} (h : splitOnCharList c xs = y :: ys) :
    splitOnCharList c (x :: xs) = (x :: y) :: ys := by
  simp [splitOnCharList, hx, h]

theorem joinChars_splitOnCharList (c : Char) (l : List Char) :
    joinChars c (splitOnCharList c l) = l := by
  induction l with
  | nil => rfl
  | cons x xs ih =>
    by_cases hx : x = c
    · subst hx
      rw [splitOnCharList_cons_self]
      cases h : splitOnCharList x xs with
      | nil => exact absurd h (splitOnCharList_ne_nil x xs)
      | cons y ys =>
        rw [h] at ih
        exact congrArg (List.cons x) ih
    · cases h : splitOnCharList c xs with
      | nil => exact absurd h (splitOnCharList_ne_nil c xs)
      | cons y ys =>
        rw [splitOnCharList_cons_ne c x xs hx h]
        rw [h] at ih
        cases ys with
        | nil => exact congrArg (List.cons x) ih
        | cons z zs => exact congrArg (List.cons x) ih

theorem joinPath_map_mk (L : List (List Char)) :
    joinPath (L.map String.mk) = String.mk (joinChars '/' L) := by
  induction L with
  | nil => rfl
  | cons s t ih =>
    cases t with
    | nil => rfl
    | cons u us =>
      show String.mk s ++ "/" ++ joinPath ((u :: us).map String.mk)
        = String.mk (s ++ '/' :: joinChars '/' (u :: us))
      rw [ih]
      show String.mk ((s ++ ['/']) ++ joinChars '/' (u :: us))
        = String.mk (s ++ '/' :: joinChars '/' (u :: us))
      rw [List.append_assoc]
      rfl

/-- Splitting a path on the separator and rejoining recovers the path:
the embedding's path decomposition is lossless. -/
theorem joinPath_splitPath (p : String) : joinPath (splitPath p) = p := by
  cases p with
  | mk l =>
    show joinPath (((splitOnCharList '/' l).map String.mk)) = String.mk l
    rw [joinPath_map_mk, joinChars_splitOnCharList]

/-! ## The keyed order behind `max(variants, key=...)` -/

/-- The non-strict comparison of the `(count_uppercase v, v)` keys that
`build_folder_name_map` maximizes over. -/
def vkeyLE (a b : String) : Prop :=
  count_uppercase a < count_uppercase b ∨
    (count_uppercase a = count_uppercase b ∧ a ≤ b)

theorem vkeyLE_refl (a : String) : vkeyLE a a :=
  Or.inr ⟨rfl, le_refl a⟩

theorem vkeyLE_trans {a b c : String} (h1 : vkeyLE a b) (h2 : vkeyLE b c) :
    vkeyLE a c := by
  rcases h1 with h1 | ⟨h1, h1'⟩
  · rcases h2 with h2 | ⟨h2, _⟩
    · exact Or.inl (lt_trans h1 h2)
    · exact Or.inl (h2 ▸ h1)
  · rcases h2 with h2 | ⟨h2, h2'⟩
    · exact Or.inl (h1 ▸ h2)
    · exact Or.inr ⟨h1.trans h2, le_trans h1' h2'⟩

theorem vkeyLE_antisymm {a b : String} (h1 : vkeyLE a b) (h2 : vkeyLE b a) :
    a = b := by
  rcases h1 with h1 | ⟨h1, h1'⟩
  · rcases h2 with h2 | ⟨h2, _⟩
    · exact absurd h2 (lt_asymm h1)
    · exact absurd h2.symm (ne_of_lt h1)
  · rcases h2 with h2 | ⟨h2, h2'⟩
    · exact absurd h1 (ne_of_lt h2).symm
    · exact le_antisymm h1' h2'

theorem variant_better_true {x acc : String} (h : variant_better x acc = true) :
    vkeyLE acc x := by
  simp only [variant_better, Bool.or_eq_true, Bool.and_eq_true,
    decide_eq_true_eq] at h
  rcases h with h | ⟨h, h'⟩
  · exact Or.inl h
  · exact Or.inr ⟨h.symm, le_of_lt h'⟩

theorem variant_better_false {x acc : String} (h : variant_better x acc = false) :
    vkeyLE x acc := by
  simp only [variant_better, Bool.or_eq_false_iff, Bool.and_eq_false_iff,
    decide_eq_false_iff_not] at h
  obtain ⟨h1, h2⟩ := h
  rcases lt_trichotomy (count_uppercase x) (count_uppercase acc) with hlt | heq | hgt
  · exact Or.inl hlt
  · refine Or.inr ⟨heq, ?_⟩
    rcases h2 with h2 | h2
    · exact absurd heq h2
    · exact le_of_not_lt h2
  · exact absurd hgt h1

theorem max_variant_spec (vs : List String) :
    ∀ v : String, (max_variant v vs = v ∨ max_variant v vs ∈ vs) ∧
      vkeyLE v (max_variant v vs) ∧ ∀ x ∈ vs, vkeyLE x (max_variant v vs) := by
  induction vs with
  | nil =>
    intro v
    exact ⟨Or.inl rfl, vkeyLE_refl v, by simp⟩
  | cons x rest ih =>
    intro v
    have hstep : max_variant v (x :: rest)
        = max_variant (if variant_better x v then x else v) rest := rfl
    by_cases hb : variant_better x v = true
    · rw [hstep, if_pos hb]
      obtain ⟨hmem, hle, hall⟩ := ih x
      refine ⟨?_, ?_, ?_⟩
      · rcases hmem with h | h
        · exact Or.inr (by rw [h]; exact List.mem_cons_self x rest)
        · exact Or.inr (List.mem_cons_of_mem x h)
      · exact vkeyLE_trans (variant_better_true hb) hle
      · intro y hy
        rcases List.mem_cons.mp hy with h | h
        · exact h ▸ hle
        · exact hall y h
    · rw [hstep, if_neg hb]
      obtain ⟨hmem, hle, hall⟩ := ih v
      refine ⟨?_, hle, ?_⟩
      · rcases hmem with h | h
        · exact Or.inl h
        · exact Or.inr (List.mem_cons_of_mem x h)
      · intro y hy
        rcases List.mem_cons.mp hy with h | h
        · have hxv : vkeyLE x v := variant_better_false (by simpa using hb)
          exact h ▸ vkeyLE_trans hxv hle
        · exact hall y h

/-- The choice of `build_folder_name_map` is a member of the bucket and
is key-maximal in it. -/
theorem choose_variant_spec {vs : List String} {b : String}
    (h : choose_variant vs = some b) :
    b ∈ vs ∧ ∀ v ∈ vs, vkeyLE v b := by
  match vs, h with
  | [v], h =>
    have hb : b = v := by simpa [choose_variant] using h.symm
    subst hb
    exact ⟨List.mem_singleton.mpr rfl, by
      intro v' hv'
      rw [List.mem_singleton.mp hv']
      exact vkeyLE_refl b⟩
  | v :: x :: rest, h =>
    have hb : b = max_variant v (x :: rest) := by
      simpa [choose_variant] using h.symm
    subst hb
    obtain ⟨hmem, hle, hall⟩ := max_variant_spec (x :: rest) v
    refine ⟨?_, ?_⟩
    · rcases hmem with h' | h'
      · exact by rw [h']; exact List.mem_cons_self v (x :: rest)
      · exact List.mem_cons_of_mem v h'
    · intro y hy
      rcases List.mem_cons.mp hy with h' | h'
      · exact h' ▸ hle
      · exact hall y h'

theorem choose_variant_some {vs : List String} (h : vs ≠ []) :
    ∃ b, choose_variant vs = some b := by
  match vs with
  | [v] => exact ⟨v, rfl⟩
  | v :: x :: rest => exact ⟨max_variant v (x :: rest), rfl⟩

/-- The chosen variant depends only on the membership of the bucket,
not on the order or multiplicity of its representation. -/
theorem choose_variant_set_determined (vs vs' : List String)
    (h : ∀ x, x ∈ vs ↔ x ∈ vs') :
    choose_variant vs = choose_variant vs' := by
  cases hv : vs with
  | nil =>
    cases hv' : vs' with
    | nil => rfl
    | cons y ys =>
      have : y ∈ vs := (h y).mpr (hv' ▸ List.mem_cons_self y ys)
      rw [hv] at this
      exact absurd this (List.not_mem_nil y)
  | cons z zs =>
    subst hv
    obtain ⟨b, hb⟩ := @choose_variant_some (z :: zs) (by simp)
    obtain ⟨hmem, hall⟩ := choose_variant_spec hb
    have hb' : ∃ b', choose_variant vs' = some b' := by
      apply choose_variant_some
      intro hnil
      have : b ∈ vs' := (h b).mp hmem
      rw [hnil] at this
      exact absurd this (List.not_mem_nil b)
    obtain ⟨b', hb'⟩ := hb'
    obtain ⟨hmem', hall'⟩ := choose_variant_spec hb'
    have e1 : vkeyLE b b' := hall' b ((h b).mp hmem)
    have e2 : vkeyLE b' b := hall b' ((h b').mpr hmem')
    rw [hb, hb', vkeyLE_antisymm e2 e1]

/-! ## Invariants of the variant dictionary and the canonical folder map -/

/-- Every recorded spelling lowercases to its bucket key. -/
def VariantInv (vm : List (String × List String)) : Prop :=
  ∀ pr ∈ vm, ∀ v ∈ pr.2, str_lower v = pr.1

theorem addVariant_inv {vm : List (String × List String)} (h : VariantInv vm)
    (d : String) : VariantInv (addVariant vm d) := by
  induction vm with
  | nil =>
    intro pr hpr v hv
    simp only [addVariant, List.mem_singleton] at hpr
    subst hpr
    simp only [List.mem_singleton] at hv
    subst hv
    rfl
  | cons kv rest ih =>
    obtain ⟨k, vs⟩ := kv
    have hrest : VariantInv rest := fun pr hpr => h pr (List.mem_cons_of_mem _ hpr)
    by_cases hk : k = str_lower d
    · intro pr hpr v hv
      simp only [addVariant, if_pos hk] at hpr
      rcases List.mem_cons.mp hpr with hpr | hpr
      · subst hpr
        simp only at hv
        by_cases hc : vs.contains d
        · rw [if_pos hc] at hv
          exact h (k, vs) (List.mem_cons_self _ _) v hv
        · rw [if_neg hc] at hv
          rcases List.mem_append.mp hv with hv | hv
          · exact h (k, vs) (List.mem_cons_self _ _) v hv
          · rw [List.mem_singleton.mp hv, hk]
      · exact hrest pr hpr v hv
    · intro pr hpr v hv
      simp only [addVariant, if_neg hk] at hpr
      rcases List.mem_cons.mp hpr with hpr | hpr
      · subst hpr
        exact h (k, vs) (List.mem_cons_self _ _) v hv
      · exact ih hrest pr hpr v hv

theorem foldl_addVariant_inv (ds : List String) :
    ∀ {vm : List (String × List String)}, VariantInv vm →
      VariantInv (ds.foldl addVariant vm) := by
  induction ds with
  | nil => intro vm h; exact h
  | cons d ds' ih => intro vm h; exact ih (addVariant_inv h d)

theorem scan_folder_for_variants_inv (fs : FS) (fp : String)
    {vm : List (String × List String)} (h : VariantInv vm) :
    VariantInv (scan_folder_for_variants fs fp vm) := by
  unfold scan_folder_for_variants
  by_cases he : fs.pathExists fp
  · rw [if_pos he]; exact foldl_addVariant_inv _ h
  · rw [if_neg he]; exact h

theorem collect_all_folders_inv (fs : FS) (lines : List String)
    (mods_folder : String) (ow : Option String) :
    VariantInv (collect_all_folders fs lines mods_folder ow) := by
  unfold collect_all_folders
  have base : ∀ (mods : List String) {vm : List (String × List String)},
      VariantInv vm → VariantInv (mods.foldl
        (fun vm mod_name => scan_folder_for_variants fs (osJoin mods_folder mod_name) vm) vm) := by
    intro mods
    induction mods with
    | nil => intro vm h; exact h
    | cons m ms ih => intro vm h; exact ih (scan_folder_for_variants_inv fs _ h)
  have h0 : VariantInv ([] : List (String × List String)) := by
    intro pr hpr; exact absurd hpr (List.not_mem_nil pr)
  cases ow with
  | none => exact base _ h0
  | some o =>
    by_cases he : fs.pathExists o
    · simp only [he, if_true]
      exact scan_folder_for_variants_inv fs o (base _ h0)
    · simp only [he, if_false]
      exact base _ h0

/-- Every canonical spelling lowercases to its bucket key. -/
def FolderMapInv (m : List (String × String)) : Prop :=
  ∀ pr ∈ m, str_lower pr.2 = pr.1

theorem build_folder_name_map_inv {vm : List (String × List String)}
    (h : VariantInv vm) : FolderMapInv (build_folder_name_map vm) := by
  intro pr hpr
  unfold build_folder_name_map at hpr
  obtain ⟨kv, hkv, heq⟩ := List.mem_filterMap.mp hpr
  cases hc : choose_variant kv.2 with
  | none => rw [hc] at heq; simp at heq
  | some b =>
    rw [hc] at heq
    simp only [Option.map_some'] at heq
    obtain ⟨hmem, _⟩ := choose_variant_spec hc
    have hlow := h kv hkv b hmem
    rw [← Option.some_injective _ heq]
    exact hlow

/-! ## The path normalizer: segment rewriting and lowercase preservation -/

theorem normalize_segments_append_last (m : List (String × String)) (f : String) :
    ∀ ds : List String, normalize_segments m (ds ++ [f])
      = ds.map (fun d => (lookupKey (str_lower d) m).getD d) ++ [f] := by
  intro ds
  induction ds with
  | nil => rfl
  | cons d ds' ih =>
    cases ds' with
    | nil => rfl
    | cons e ds'' =>
      show ((lookupKey (str_lower d) m).getD d)
          :: normalize_segments m ((e :: ds'') ++ [f]) = _
      rw [ih]
      rfl

theorem normalize_segments_lower {m : List (String × String)} (hm : FolderMapInv m) :
    ∀ segs : List String,
      (normalize_segments m segs).map str_lower = segs.map str_lower := by
  intro segs
  induction segs with
  | nil => rfl
  | cons d rest ih =>
    cases rest with
    | nil => rfl
    | cons e rest' =>
      show str_lower ((lookupKey (str_lower d) m).getD d)
          :: (normalize_segments m (e :: rest')).map str_lower = _
      rw [ih]
      cases hl : lookupKey (str_lower d) m with
      | none => rfl
      | some b =>
        have := hm (str_lower d, b) (lookupKey_mem hl)
        simp only [Option.getD_some]
        rw [this]
        rfl

/-- Normalization never changes the lowercase form of a path: the match
key survives canonicalization. -/
theorem normalize_path_lower {m : List (String × String)} (hm : FolderMapInv m)
    (p : String) : str_lower (normalize_path_with_map p m) = str_lower p := by
  cases hs : splitPath p with
  | nil => simp [normalize_path_with_map, hs]
  | cons a t =>
    cases t with
    | nil => simp [normalize_path_with_map, hs]
    | cons b t' =>
      have h1 : normalize_path_with_map p m
          = joinPath (normalize_segments m (a :: b :: t')) := by
        simp [normalize_path_with_map, hs]
      rw [h1, str_lower_joinPath, normalize_segments_lower hm, ← str_lower_joinPath,
        ← hs, joinPath_splitPath]

/-! ## Lemmas about the destination-map fold -/

theorem processModFile_filemap (fs : FS) (fm : List (String × String))
    (name path : String) (st : FoldState) (pm : String × String) :
    (processModFile fs fm name path st pm).filemap
      = setKey st.filemap pm.2
          ⟨name, pm.1, normalize_path_with_map pm.1 fm, osJoin path pm.1⟩ := by
  cases h : lookupKey pm.2 st.filemap with
  | none => simp [processModFile, h]
  | some old => simp [processModFile, h]

theorem processOverwriteFile_shader (fs : FS) (fm : List (String × String))
    (ow : String) (st : FoldState) (pm : String × String)
    (h : firstSegIsShaderCache pm.1 = true) :
    processOverwriteFile fs fm ow st pm
      = { st with shadercache_skipped := st.shadercache_skipped + 1 } := by
  simp [processOverwriteFile, h]

theorem processOverwriteFile_filemap_not_shader (fs : FS)
    (fm : List (String × String)) (ow : String) (st : FoldState)
    (pm : String × String) (h : firstSegIsShaderCache pm.1 = false) :
    (processOverwriteFile fs fm ow st pm).filemap
      = setKey st.filemap pm.2
          ⟨"[OVERWRITE]", pm.1, normalize_path_with_map pm.1 fm, osJoin ow pm.1⟩ := by
  cases hl : lookupKey pm.2 st.filemap with
  | none => simp [processOverwriteFile, h, hl]
  | some old => simp [processOverwriteFile, h, hl]

theorem modFold_keeps_attr (fs : FS) (fm : List (String × String))
    (name path : String) :
    ∀ (files : List (String × String)) (st : FoldState) (k : String),
      (∃ e, lookupKey k st.filemap = some e ∧ e.mod_name = name) →
      ∃ e, lookupKey k ((files.foldl (processModFile fs fm name path) st)).filemap
          = some e ∧ e.mod_name = name := by
  intro files
  induction files with
  | nil => intro st k h; exact h
  | cons pm rest ih =>
    intro st k h
    apply ih
    by_cases hk : k = pm.2
    · subst hk
      refine ⟨⟨name, pm.1, normalize_path_with_map pm.1 fm, osJoin path pm.1⟩, ?_, rfl⟩
      rw [processModFile_filemap]
      exact lookupKey_setKey_self _ _ _
    · obtain ⟨e, he, hname⟩ := h
      refine ⟨e, ?_, hname⟩
      rw [processModFile_filemap, lookupKey_setKey_ne _ _ hk]
      exact he

theorem modFold_mem_attr (fs : FS) (fm : List (String × String))
    (name path : String) :
    ∀ (files : List (String × String)) (st : FoldState) (p k : String),
      (p, k) ∈ files →
      ∃ e, lookupKey k ((files.foldl (processModFile fs fm name path) st)).filemap
          = some e ∧ e.mod_name = name := by
  intro files
  induction files with
  | nil => intro st p k h; exact absurd h (List.not_mem_nil _)
  | cons pm rest ih =>
    intro st p k h
    rcases List.mem_cons.mp h with h | h
    · obtain rfl : pm = (p, k) := h.symm
      rw [List.foldl_cons]
      apply modFold_keeps_attr
      refine ⟨⟨name, p, normalize_path_with_map p fm, osJoin path p⟩, ?_, rfl⟩
      rw [processModFile_filemap]
      exact lookupKey_setKey_self _ _ _
    · exact ih _ p k h

theorem overlayFold_keeps_attr (fs : FS) (fm : List (String × String)) (ow : String) :
    ∀ (files : List (String × String)) (st : FoldState) (k : String),
      (∃ e, lookupKey k st.filemap = some e ∧ e.mod_name = "[OVERWRITE]") →
      ∃ e, lookupKey k ((files.foldl (processOverwriteFile fs fm ow) st)).filemap
          = some e ∧ e.mod_name = "[OVERWRITE]" := by
  intro files
  induction files with
  | nil => intro st k h; exact h
  | cons pm rest ih =>
    intro st k h
    apply ih
    by_cases hsh : firstSegIsShaderCache pm.1
    · rw [processOverwriteFile_shader fs fm ow st pm hsh]
      exact h
    · have hsh' : firstSegIsShaderCache pm.1 = false := by simpa using hsh
      by_cases hk : k = pm.2
      · subst hk
        refine ⟨⟨"[OVERWRITE]", pm.1, normalize_path_with_map pm.1 fm, osJoin ow pm.1⟩, ?_, rfl⟩
        rw [processOverwriteFile_filemap_not_shader fs fm ow st pm hsh']
        exact lookupKey_setKey_self _ _ _
      · obtain ⟨e, he, hname⟩ := h
        refine ⟨e, ?_, hname⟩
        rw [processOverwriteFile_filemap_not_shader fs fm ow st pm hsh',
          lookupKey_setKey_ne _ _ hk]
        exact he

theorem overlayFold_mem_attr (fs : FS) (fm : List (String × String)) (ow : String) :
    ∀ (files : List (String × String)) (st : FoldState) (p k : String),
      (p, k) ∈ files → firstSegIsShaderCache p = false →
      ∃ e, lookupKey k ((files.foldl (processOverwriteFile fs fm ow) st)).filemap
          = some e ∧ e.mod_name = "[OVERWRITE]" := by
  intro files
  induction files with
  | nil => intro st p k h; exact absurd h (List.not_mem_nil _)
  | cons pm rest ih =>
    intro st p k h hns
    rcases List.mem_cons.mp h with h | h
    · obtain rfl : pm = (p, k) := h.symm
      rw [List.foldl_cons]
      apply overlayFold_keeps_attr
      refine ⟨⟨"[OVERWRITE]", p, normalize_path_with_map p fm, osJoin ow p⟩, ?_, rfl⟩
      rw [processOverwriteFile_filemap_not_shader fs fm ow st (p, k) hns]
      exact lookupKey_setKey_self _ _ _
    · exact ih _ p k h hns

theorem overlayFold_untouched (fs : FS) (fm : List (String × String)) (ow : String) :
    ∀ (files : List (String × String)) (st : FoldState) (k : String),
      (∀ q k', (q, k') ∈ files → k' = k → firstSegIsShaderCache q = true) →
      lookupKey k ((files.foldl (processOverwriteFile fs fm ow) st)).filemap
        = lookupKey k st.filemap := by
  intro files
  induction files with
  | nil => intro st k _; rfl
  | cons pm rest ih =>
    intro st k h
    have hrest : ∀ q k', (q, k') ∈ rest → k' = k → firstSegIsShaderCache q = true :=
      fun q k' hq => h q k' (List.mem_cons_of_mem _ hq)
    rw [List.foldl_cons, ih _ k hrest]
    by_cases hsh : firstSegIsShaderCache pm.1
    · rw [processOverwriteFile_shader fs fm ow st pm hsh]
    · have hsh' : firstSegIsShaderCache pm.1 = false := by simpa using hsh
      have hk : k ≠ pm.2 := by
        intro he
        exact absurd (h pm.1 pm.2 (List.mem_cons_self _ _) he.symm) (by simp [hsh'])
      rw [processOverwriteFile_filemap_not_shader fs fm ow st pm hsh',
        lookupKey_setKey_ne _ _ hk]

theorem mem_scan_mod_files {fs : FS} {root : String} {pr : String × String}
    (h : pr ∈ scan_mod_files fs root) :
    pr.1 ∈ fs.walkFiles root ∧ pr.2 = str_lower pr.1 := by
  unfold scan_mod_files at h
  by_cases he : fs.pathExists root
  · rw [if_pos he] at h
    obtain ⟨p, hp, he2⟩ := List.mem_map.mp h
    rw [← he2]
    exact ⟨hp, rfl⟩
  · rw [if_neg he] at h
    exact absurd h (List.not_mem_nil _)

theorem scan_mod_files_mem {fs : FS} {root p : String}
    (he : fs.pathExists root = true) (hp : p ∈ fs.walkFiles root) :
    (p, str_lower p) ∈ scan_mod_files fs root := by
  unfold scan_mod_files
  rw [if_pos he]
  exact List.mem_map_of_mem _ hp

/-! ## The filemap keeps its keys: normalized paths lowercase to match keys -/

/-- Every filemap record's normalized destination path lowercases to
exactly the record's match key. -/
def MapLowerInv (m : List (String × FileEntry)) : Prop :=
  ∀ k e, lookupKey k m = some e → str_lower e.normalized_path = k

theorem mapLowerInv_set {m : List (String × FileEntry)} (h : MapLowerInv m)
    {k : String} {e : FileEntry} (he : str_lower e.normalized_path = k) :
    MapLowerInv (setKey m k e) := by
  intro k' e' hl
  rcases lookupKey_setKey_cases hl with ⟨hk, hv⟩ | ⟨hne, hl'⟩
  · subst hk; subst hv; exact he
  · exact h k' e' hl'

theorem modFold_lowerinv (fs : FS) {fm : List (String × String)}
    (hfm : FolderMapInv fm) (name path : String) :
    ∀ (files : List (String × String)) (st : FoldState),
      (∀ pr ∈ files, pr.2 = str_lower pr.1) → MapLowerInv st.filemap →
      MapLowerInv ((files.foldl (processModFile fs fm name path) st)).filemap := by
  intro files
  induction files with
  | nil => intro st _ h; exact h
  | cons pm rest ih =>
    intro st hpr h
    rw [List.foldl_cons]
    apply ih _ (fun q hq => hpr q (List.mem_cons_of_mem _ hq))
    rw [processModFile_filemap]
    apply mapLowerInv_set h
    show str_lower (normalize_path_with_map pm.1 fm) = pm.2
    rw [normalize_path_lower hfm]
    exact (hpr pm (List.mem_cons_self _ _)).symm

theorem overlayFileFold_lowerinv (fs : FS) {fm : List (String × String)}
    (hfm : FolderMapInv fm) (ow : String) :
    ∀ (files : List (String × String)) (st : FoldState),
      (∀ pr ∈ files, pr.2 = str_lower pr.1) → MapLowerInv st.filemap →
      MapLowerInv ((files.foldl (processOverwriteFile fs fm ow) st)).filemap := by
  intro files
  induction files with
  | nil => intro st _ h; exact h
  | cons pm rest ih =>
    intro st hpr h
    rw [List.foldl_cons]
    apply ih _ (fun q hq => hpr q (List.mem_cons_of_mem _ hq))
    by_cases hsh : firstSegIsShaderCache pm.1
    · rw [processOverwriteFile_shader fs fm ow st pm hsh]
      exact h
    · have hsh' : firstSegIsShaderCache pm.1 = false := by simpa using hsh
      rw [processOverwriteFile_filemap_not_shader fs fm ow st pm hsh']
      apply mapLowerInv_set h
      show str_lower (normalize_path_with_map pm.1 fm) = pm.2
      rw [normalize_path_lower hfm]
      exact (hpr pm (List.mem_cons_self _ _)).symm

theorem processMod_lowerinv (fs : FS) {fm : List (String × String)}
    (hfm : FolderMapInv fm) (mf : String) (st : FoldState) (name : String)
    (h : MapLowerInv st.filemap) :
    MapLowerInv ((processMod fs fm mf st name)).filemap := by
  unfold processMod
  by_cases he : fs.pathExists (osJoin mf name)
  · rw [if_pos he]
    exact modFold_lowerinv fs hfm name _ _ st
      (fun pr hpr => (mem_scan_mod_files hpr).2) h
  · rw [if_neg he]
    exact h

theorem ordinary_fold_lowerinv (fs : FS) {fm : List (String × String)}
    (hfm : FolderMapInv fm) (mf : String) (mods : List String) :
    MapLowerInv ((ordinary_fold fs fm mf mods)).filemap := by
  unfold ordinary_fold
  have base : MapLowerInv (initFoldState).filemap := by
    intro k e hl
    simp [initFoldState, lookupKey] at hl
  revert base
  generalize initFoldState = st0
  intro base
  induction mods generalizing st0 with
  | nil => exact base
  | cons m ms ih =>
    rw [List.foldl_cons]
    exact ih _ (processMod_lowerinv fs hfm mf st0 m base)

theorem overlay_fold_lowerinv (fs : FS) {fm : List (String × String)}
    (hfm : FolderMapInv fm) (ow : String) (st : FoldState)
    (h : MapLowerInv st.filemap) :
    MapLowerInv ((overlay_fold fs fm ow st)).filemap := by
  unfold overlay_fold
  by_cases he : fs.pathExists ow
  · rw [if_pos he]
    exact overlayFileFold_lowerinv fs hfm ow _ st
      (fun pr hpr => (mem_scan_mod_files hpr).2) h
  · rw [if_neg he]
    exact h

/-- The folder map computed by the build always satisfies the
lowercase-key invariant. -/
theorem build_folder_map_inv (fs : FS) (lines : List String)
    (mods_folder : String) (ow : Option String) :
    FolderMapInv (build_folder_name_map
      (collect_all_folders fs lines mods_folder ow)) :=
  build_folder_name_map_inv (collect_all_folders_inv fs lines mods_folder ow)

theorem build_filemap_lowerinv (fs : FS) (lines : List String)
    (mods_folder : String) (ow : Option String) :
    MapLowerInv ((build_filemap fs lines mods_folder ow)).filemap := by
  have hfm := build_folder_map_inv fs lines mods_folder ow
  unfold build_filemap
  cases ow with
  | none => exact ordinary_fold_lowerinv fs hfm mods_folder _
  | some o =>
    exact overlay_fold_lowerinv fs hfm o _
      (ordinary_fold_lowerinv fs hfm mods_folder _)

/-! ## Counting lemmas for the materializer -/

theorem materializeEntry_counts (env : LinkEnv) (out : String) (st : MatState)
    (kv : String × FileEntry) :
    (materializeEntry env out st kv).created + (materializeEntry env out st kv).failed
        = st.created + st.failed + 1 ∧
      (materializeEntry env out st kv).failed_files.length + st.failed
        = (materializeEntry env out st kv).failed + st.failed_files.length := by
  unfold materializeEntry
  by_cases hs : env.sourceExists kv.2.full_source
  · rw [if_pos hs]
    cases hl : lookupKey (kv.2.full_source, osJoin out kv.2.normalized_path) env.linkErrors with
    | none => constructor <;> simp <;> omega
    | some err => constructor <;> simp <;> omega
  · rw [if_neg hs]
    constructor <;> simp <;> omega

theorem materialize_fold_counts (env : LinkEnv) (out : String) :
    ∀ (entries : List (String × FileEntry)) (st : MatState),
      ((entries.foldl (materializeEntry env out) st)).created
          + ((entries.foldl (materializeEntry env out) st)).failed
        = st.created + st.failed + entries.length ∧
      ((entries.foldl (materializeEntry env out) st)).failed_files.length + st.failed
        = ((entries.foldl (materializeEntry env out) st)).failed
            + st.failed_files.length := by
  intro entries
  induction entries with
  | nil =>
    intro st
    refine ⟨by simp, ?_⟩
    simp only [List.foldl_nil]
    omega
  | cons kv rest ih =>
    intro st
    rw [List.foldl_cons]
    obtain ⟨h1, h2⟩ := ih (materializeEntry env out st kv)
    obtain ⟨g1, g2⟩ := materializeEntry_counts env out st kv
    constructor
    · rw [h1, g1]
      simp [List.length_cons]
      omega
    · omega

/-! ## Claim theorems -/

/-- C3: for every non-empty variant bucket, the chosen spelling is a
member with the strictly greatest uppercase-letter count, ties broken
by the lexicographically greatest string; a choice always exists for a
non-empty bucket; the choice is a pure function of the bucket's
membership (independent of discovery or iteration order); and
`build_folder_name_map` records exactly that choice for each bucket. -/
theorem c3_case_bucket_determinism :
    (∀ (vs : List String) (b : String), choose_variant vs = some b →
        b ∈ vs ∧ ∀ v ∈ vs, count_uppercase v < count_uppercase b ∨
          (count_uppercase v = count_uppercase b ∧ v ≤ b)) ∧
    (∀ vs : List String, vs ≠ [] → ∃ b, choose_variant vs = some b) ∧
    (∀ vs vs' : List String, (∀ x, x ∈ vs ↔ x ∈ vs') →
        choose_variant vs = choose_variant vs') ∧
    (∀ (fv : List (String × List String)) (k : String) (vs : List String)
        (b : String), (k, vs) ∈ fv → choose_variant vs = some b →
        (k, b) ∈ build_folder_name_map fv) := by
  refine ⟨?_, ?_, ?_, ?_⟩
  · intro vs b h
    exact choose_variant_spec h
  · intro vs h
    exact choose_variant_some h
  · intro vs vs' h
    exact choose_variant_set_determined vs vs' h
  · intro fv k vs b hmem hc
    unfold build_folder_name_map
    apply List.mem_filterMap.mpr
    exact ⟨(k, vs), hmem, by rw [hc]; rfl⟩

/-- C3 witness at the spec's example bucket {SKSE, skse, Skse}. -/
theorem c3_case_bucket_determinism_witness :
    choose_variant ["skse", "Skse", "SKSE"] = choose_variant ["SKSE", "skse", "Skse"] ∧
    "SKSE" ∈ ["SKSE", "skse", "Skse"] ∧
    (∀ v ∈ ["SKSE", "skse", "Skse"],
      count_uppercase v < count_uppercase "SKSE" ∨
        (count_uppercase v = count_uppercase "SKSE" ∧ v ≤ "SKSE")) ∧
    ("skse", "SKSE") ∈ build_folder_name_map [("skse", ["SKSE", "skse", "Skse"])] := by
  have hc : choose_variant ["SKSE", "skse", "Skse"] = some "SKSE" := by decide
  refine ⟨?_, ?_, ?_, ?_⟩
  · exact c3_case_bucket_determinism.2.2.1 _ _ (by intro x; simp [List.mem_cons]; tauto)
  · exact (c3_case_bucket_determinism.1 _ _ hc).1
  · exact (c3_case_bucket_determinism.1 _ _ hc).2
  · exact c3_case_bucket_determinism.2.2.2 _ "skse" _ "SKSE" (by simp) hc

theorem normalize_path_eq_of_split {p : String} (m : List (String × String))
    {segs : List String} (hs : splitPath p = segs) (h2 : 2 ≤ segs.length) :
    normalize_path_with_map p m = joinPath (normalize_segments m segs) := by
  match segs, h2 with
  | a :: b :: t, _ =>
    unfold normalize_path_with_map
    rw [hs]

/-- C4: `normalize_path_with_map` rewrites each directory segment to
its canonical spelling when the lowercase key is mapped, keeps it
unchanged when the key is absent, and never alters the final filename
segment; a bare filename is returned verbatim. -/
theorem c4_normalize_preserves_filename :
    (∀ (p : String) (m : List (String × String)) (ds : List String) (f : String),
        splitPath p = ds ++ [f] → ds ≠ [] →
        normalize_path_with_map p m
          = joinPath (ds.map (fun d => (lookupKey (str_lower d) m).getD d) ++ [f])) ∧
    (∀ (p : String) (m : List (String × String)) (f : String),
        splitPath p = [f] → normalize_path_with_map p m = p) := by
  constructor
  · intro p m ds f hs hds
    cases ds with
    | nil => exact absurd rfl hds
    | cons d ds' =>
      rw [normalize_path_eq_of_split m hs (by simp),
        normalize_segments_append_last m f (d :: ds')]
  · intro p m f hs
    unfold normalize_path_with_map
    rw [hs]

/-- C4 witness at the spec's example: directory case changes, filename
case does not; a bare filename is untouched. -/
theorem c4_normalize_preserves_filename_witness :
    normalize_path_with_map "skse/ReadMe.TXT" [("skse", "SKSE")] = "SKSE/ReadMe.TXT" ∧
    normalize_path_with_map "ReadMe.TXT" [("skse", "SKSE")] = "ReadMe.TXT" := by
  constructor
  · rw [c4_normalize_preserves_filename.1 "skse/ReadMe.TXT" [("skse", "SKSE")]
      ["skse"] "ReadMe.TXT" (by decide) (by decide)]
    decide
  · exact c4_normalize_preserves_filename.2 "ReadMe.TXT" [("skse", "SKSE")]
      "ReadMe.TXT" (by decide)

/-- C7: a path that does not exist yields an empty scan, leaves the
variant dictionary untouched, and a missing mod folder contributes
nothing to the fold (the mod is skipped, the state unchanged). -/
theorem c7_missing_root_tolerated (fs : FS) (p : String)
    (vm : List (String × List String)) (h : fs.pathExists p = false) :
    scan_mod_files fs p = [] ∧
    scan_folder_for_variants fs p vm = vm ∧
    (∀ (fm : List (String × String)) (mf name : String) (st : FoldState),
        osJoin mf name = p → processMod fs fm mf st name = st) := by
  refine ⟨?_, ?_, ?_⟩
  · simp [scan_mod_files, h]
  · simp [scan_folder_for_variants, h]
  · intro fm mf name st hj
    simp [processMod, hj, h]

/-- C7 witness on a filesystem without the queried root. -/
theorem c7_missing_root_tolerated_witness :
    scan_mod_files ⟨[], [], [], []⟩ "mods/Absent" = [] ∧
    scan_folder_for_variants ⟨[], [], [], []⟩ "mods/Absent" [("a", ["A"])]
      = [("a", ["A"])] ∧
    processMod ⟨[], [], [], []⟩ [] "mods" initFoldState "Absent" = initFoldState := by
  obtain ⟨h1, h2, h3⟩ := c7_missing_root_tolerated ⟨[], [], [], []⟩ "mods/Absent"
    [("a", ["A"])] (by decide)
  exact ⟨h1, h2, h3 [] "mods" "Absent" initFoldState (by decide)⟩

/-- C8: a user-supplied output path whose base name is not
case-insensitively `Data` gets a `Data` component appended, and every
path with which the build proceeds past the safety gate (instead of
exiting non-zero before any deletion) has base name `Data`
case-insensitively. -/
theorem c8_output_data_safety :
    (∀ o script_dir : String, str_lower (basename (rstripSep o)) ≠ "data" →
        resolve_output (some o) script_dir = osJoin o "Data") ∧
    (∀ (u : Option String) (script_dir out : String),
        output_safety u script_dir = MainAction.proceed out →
        str_lower (basename (rstripSep out)) = "data") := by
  constructor
  · intro o sd h
    simp [resolve_output, h]
  · intro u sd out h
    unfold output_safety at h
    by_cases hc : str_lower (basename (rstripSep (resolve_output u sd))) = "data"
    · rw [if_pos hc] at h
      injection h with h'
      rw [← h']
      exact hc
    · rw [if_neg hc] at h
      exact MainAction.noConfusion h

/-- C8 witness: a non-`Data` path gets `Data` appended and the gate
then lets exactly that adjusted path through. -/
theorem c8_output_data_safety_witness :
    resolve_output (some "/home/deck/out") "/sd" = "/home/deck/out/Data" ∧
    str_lower (basename (rstripSep "/home/deck/out/Data")) = "data" := by
  constructor
  · rw [c8_output_data_safety.1 "/home/deck/out" "/sd" (by decide)]
    decide
  · exact c8_output_data_safety.2 (some "/home/deck/out") "/sd"
      "/home/deck/out/Data" (by decide)

/-- C9: every canonical spelling in the built folder map lowercases
back to its bucket key; normalization preserves the lowercase form of
every path whenever the folder map has that property; hence every
record of the built filemap has a normalized destination path that
lowercases to exactly its match key. -/
theorem c9_match_key_preserved :
    (∀ (fs : FS) (lines : List String) (mods_folder : String) (ow : Option String),
        ∀ pr ∈ build_folder_name_map (collect_all_folders fs lines mods_folder ow),
          str_lower pr.2 = pr.1) ∧
    (∀ (p : String) (m : List (String × String)), FolderMapInv m →
        str_lower (normalize_path_with_map p m) = str_lower p) ∧
    (∀ (fs : FS) (lines : List String) (mods_folder : String) (ow : Option String)
        (k : String) (e : FileEntry),
        lookupKey k ((build_filemap fs lines mods_folder ow)).filemap = some e →
        str_lower e.normalized_path = k) := by
  refine ⟨?_, ?_, ?_⟩
  · intro fs lines mf ow pr hpr
    exact build_folder_map_inv fs lines mf ow pr hpr
  · intro p m hm
    exact normalize_path_lower hm p
  · intro fs lines mf ow k e h
    exact build_filemap_lowerinv fs lines mf ow k e h

def c9FS : FS :=
  { existing := ["mods/M"],
    walks := [("mods/M", ["skse/ReadMe.TXT"])],
    dirWalks := [("mods/M", ["skse", "SKSE"])],
    sizes := [] }

/-- C9 witness: a concrete build where the canonical spelling differs
from the file's spelling, yet the normalized path still lowercases to
the match key. -/
theorem c9_match_key_preserved_witness :
    str_lower (normalize_path_with_map "skse/ReadMe.TXT" [("skse", "SKSE")])
        = str_lower "skse/ReadMe.TXT" ∧
    str_lower (FileEntry.normalized_path
        ⟨"M", "skse/ReadMe.TXT", "SKSE/ReadMe.TXT", "mods/M/skse/ReadMe.TXT"⟩)
      = "skse/readme.txt" := by
  constructor
  · exact c9_match_key_preserved.2.1 "skse/ReadMe.TXT" [("skse", "SKSE")]
      (by unfold FolderMapInv; decide)
  · exact c9_match_key_preserved.2.2 c9FS ["+M"] "mods" none "skse/readme.txt"
      ⟨"M", "skse/ReadMe.TXT", "SKSE/ReadMe.TXT", "mods/M/skse/ReadMe.TXT"⟩ (by decide)

/-- C2: every overwrite-folder file outside the ShaderCache subtree
ends up attributed to the `"[OVERWRITE]"` sentinel in the final filemap
(whatever the ordinary mods contained); and for any match key whose
overwrite-folder occurrences all lie inside ShaderCache, the overlay
pass leaves the filemap's answer unchanged — such files are excluded
from the destination map entirely. -/
theorem c2_overlay_supremacy (fs : FS) (lines : List String)
    (mods_folder ow : String) (how : fs.pathExists ow = true) :
    (∀ p ∈ fs.walkFiles ow, firstSegIsShaderCache p = false →
        ∃ e, lookupKey (str_lower p)
            ((build_filemap fs lines mods_folder (some ow))).filemap = some e ∧
          e.mod_name = "[OVERWRITE]") ∧
    (∀ k : String,
        (∀ p ∈ fs.walkFiles ow, str_lower p = k → firstSegIsShaderCache p = true) →
        lookupKey k ((build_filemap fs lines mods_folder (some ow))).filemap
          = lookupKey k ((ordinary_fold fs
              (build_folder_name_map (collect_all_folders fs lines mods_folder (some ow)))
              mods_folder (parse_modlist lines))).filemap) := by
  have hbf : build_filemap fs lines mods_folder (some ow)
      = overlay_fold fs
          (build_folder_name_map (collect_all_folders fs lines mods_folder (some ow))) ow
          (ordinary_fold fs
            (build_folder_name_map (collect_all_folders fs lines mods_folder (some ow)))
            mods_folder (parse_modlist lines)) := rfl
  constructor
  · intro p hp hns
    rw [hbf]
    unfold overlay_fold
    rw [if_pos how]
    exact overlayFold_mem_attr fs _ ow _ _ p (str_lower p)
      (scan_mod_files_mem how hp) hns
  · intro k hk
    rw [hbf]
    unfold overlay_fold
    rw [if_pos how]
    apply overlayFold_untouched
    intro q k' hq hk'
    obtain ⟨hq1, hq2⟩ := mem_scan_mod_files hq
    apply hk q hq1
    rw [← hq2]
    exact hk'

def c2FS : FS :=
  { existing := ["ow"],
    walks := [("ow", ["x/y.txt", "ShaderCache/a.bin"])],
    dirWalks := [],
    sizes := [] }

/-- C2 witness: a concrete overlay with one ordinary file (attributed
to the sentinel) and one ShaderCache file (leaving the map unchanged). -/
theorem c2_overlay_supremacy_witness :
    (∃ e, lookupKey "x/y.txt"
        ((build_filemap c2FS [] "mods" (some "ow"))).filemap = some e ∧
      e.mod_name = "[OVERWRITE]") ∧
    lookupKey "shadercache/a.bin"
        ((build_filemap c2FS [] "mods" (some "ow"))).filemap
      = lookupKey "shadercache/a.bin"
          ((ordinary_fold c2FS
            (build_folder_name_map (collect_all_folders c2FS [] "mods" (some "ow")))
            "mods" (parse_modlist []))).filemap := by
  constructor
  · exact (c2_overlay_supremacy c2FS [] "mods" "ow" (by decide)).1 "x/y.txt"
      (by decide) (by decide)
  · exact (c2_overlay_supremacy c2FS [] "mods" "ow" (by decide)).2 "shadercache/a.bin"
      (by decide)

def c1FS : FS :=
  { existing := ["mods/A", "mods/B", "mods/C"],
    walks := [("mods/A", ["f.txt"]), ("mods/B", ["f.txt"]), ("mods/C", ["f.txt"])],
    dirWalks := [],
    sizes := [] }

/-- C1 counterexample: with enabled entries in file order [A, B, C] the
parser does return [C, B, A], but a path present in all three sources
resolves to A's version (the first enabled line, processed last), not
to C's version as the claim states. -/
theorem c1_priority_order_counterexample :
    parse_modlist ["+A", "+B", "+C"] = ["C", "B", "A"] ∧
    (lookupKey "f.txt"
        ((build_filemap c1FS ["+A", "+B", "+C"] "mods" none)).filemap).map
        FileEntry.mod_name = some "A" ∧
    (lookupKey "f.txt"
        ((build_filemap c1FS ["+A", "+B", "+C"] "mods" none)).filemap).map
        FileEntry.mod_name ≠ some "C" := by
  refine ⟨by decide, by decide, by decide⟩

/-- C1 (amended): the parser returns the enabled names in reverse file
order, and after the fold with unconditional overwrite a path present
in all three sources resolves to A's version — the first enabled line,
which is processed last and therefore wins. -/
theorem c1_priority_order_amended (lines : List String) (fs : FS)
    (mods_folder a b c p : String)
    (hp : parse_modlist lines = [c, b, a])
    (hea : fs.pathExists (osJoin mods_folder a) = true)
    (hma : p ∈ fs.walkFiles (osJoin mods_folder a))
    (_hmb : ∃ q ∈ fs.walkFiles (osJoin mods_folder b), str_lower q = str_lower p)
    (_hmc : ∃ q ∈ fs.walkFiles (osJoin mods_folder c), str_lower q = str_lower p) :
    (parse_modlist lines = (lines.filterMap parse_modlist_line).reverse) ∧
    ∃ e, lookupKey (str_lower p)
        ((build_filemap fs lines mods_folder none)).filemap = some e ∧
      e.mod_name = a := by
  constructor
  · unfold parse_modlist
    exact List.filterMap_reverse parse_modlist_line lines
  · have hbf : build_filemap fs lines mods_folder none
        = ordinary_fold fs
            (build_folder_name_map (collect_all_folders fs lines mods_folder none))
            mods_folder (parse_modlist lines) := rfl
    rw [hbf, hp]
    unfold ordinary_fold
    have hstep : ([c, b, a] : List String).foldl
        (processMod fs (build_folder_name_map (collect_all_folders fs lines mods_folder none)) mods_folder)
        initFoldState
      = processMod fs (build_folder_name_map (collect_all_folders fs lines mods_folder none)) mods_folder
          (processMod fs (build_folder_name_map (collect_all_folders fs lines mods_folder none)) mods_folder
            (processMod fs (build_folder_name_map (collect_all_folders fs lines mods_folder none)) mods_folder
              initFoldState c) b) a := rfl
    rw [hstep]
    unfold processMod
    rw [if_pos hea]
    exact modFold_mem_attr fs _ a (osJoin mods_folder a) _ _ p (str_lower p)
      (scan_mod_files_mem hea hma)

/-- C1 witness: the amended theorem applied at the concrete [A, B, C]
modlist with the shared path `f.txt`. -/
theorem c1_priority_order_amended_witness :
    ∃ e, lookupKey "f.txt"
        ((build_filemap c1FS ["+A", "+B", "+C"] "mods" none)).filemap = some e ∧
      e.mod_name = "A" :=
  (c1_priority_order_amended ["+A", "+B", "+C"] c1FS "mods" "A" "B" "C" "f.txt"
    (by decide) (by decide) (by decide)
    ⟨"f.txt", by decide, by decide⟩ ⟨"f.txt", by decide, by decide⟩).2

/-- C5: the materialization pass processes every entry of the frozen
filemap; each entry is counted exactly once as created or failed, so
created + failed equals the map size, and every failure produced
exactly one recorded `(origin, destination, error, size)` entry. -/
theorem c5_materialize_totals (env : LinkEnv) (output_dir : String)
    (initialDest : List String) (entries : List (String × FileEntry)) :
    (materialize env output_dir initialDest entries).created
        + (materialize env output_dir initialDest entries).failed
      = entries.length ∧
    (materialize env output_dir initialDest entries).failed_files.length
      = (materialize env output_dir initialDest entries).failed := by
  obtain ⟨h1, h2⟩ := materialize_fold_counts env output_dir entries
    { created := 0, failed := 0, size_linked := 0, size_failed := 0,
      failed_files := [], destFiles := initialDest }
  constructor
  · simpa using h1
  · have h2' : (materialize env output_dir initialDest entries).failed_files.length + 0
        = (materialize env output_dir initialDest entries).failed + 0 := h2
    omega

theorem mem_removeAll_ne {l : List String} {x q : String}
    (h : q ∈ removeAll l x) : q ≠ x := by
  unfold removeAll at h
  have := List.of_mem_filter h
  simpa [bne] using this

/-- C10: for an entry whose recorded origin has vanished by link time,
the step removes any pre-existing destination file before the origin
check, then records exactly one failure: afterwards the destination
path is absent (the failure is not atomic), failed is incremented by
one, created is unchanged, and the failure record carries the
`FileNotFoundError` text and size 0; the fold then continues with the
remaining entries. -/
theorem c10_nonatomic_vanished_origin (env : LinkEnv) (output_dir : String)
    (st : MatState) (kv : String × FileEntry)
    (hvan : env.sourceExists kv.2.full_source = false) :
    (materializeEntry env output_dir st kv).failed = st.failed + 1 ∧
    (materializeEntry env output_dir st kv).created = st.created ∧
    osJoin output_dir kv.2.normalized_path
      ∉ (materializeEntry env output_dir st kv).destFiles ∧
    (materializeEntry env output_dir st kv).failed_files
      = st.failed_files ++ [(kv.2.full_source, osJoin output_dir kv.2.normalized_path,
          "Source file not found: " ++ kv.2.full_source, 0)] := by
  refine ⟨?_, ?_, ?_, ?_⟩
  · simp [materializeEntry, hvan]
  · simp [materializeEntry, hvan]
  · simp only [materializeEntry, hvan, Bool.false_eq_true, if_false]
    by_cases hc : st.destFiles.contains (osJoin output_dir kv.2.normalized_path)
    · rw [if_pos hc]
      intro hmem
      exact absurd rfl (mem_removeAll_ne hmem)
    · rw [if_neg hc]
      simpa using hc
  · simp [materializeEntry, hvan]

/-- C10 witness: a destination file that existed before the step is
gone after the failed step, and the failure is recorded once. -/
theorem c10_nonatomic_vanished_origin_witness :
    ("out/a.txt" ∈ (["out/a.txt"] : List String)) ∧
    (materializeEntry ⟨[], [], []⟩ "out"
        { created := 0, failed := 0, size_linked := 0, size_failed := 0,
          failed_files := [], destFiles := ["out/a.txt"] }
        ("a.txt", ⟨"M", "a.txt", "a.txt", "mods/M/a.txt"⟩)).failed = 1 ∧
    "out/a.txt" ∉ (materializeEntry ⟨[], [], []⟩ "out"
        { created := 0, failed := 0, size_linked := 0, size_failed := 0,
          failed_files := [], destFiles := ["out/a.txt"] }
        ("a.txt", ⟨"M", "a.txt", "a.txt", "mods/M/a.txt"⟩)).destFiles := by
  have h := c10_nonatomic_vanished_origin ⟨[], [], []⟩ "out"
    { created := 0, failed := 0, size_linked := 0, size_failed := 0,
      failed_files := [], destFiles := ["out/a.txt"] }
    ("a.txt", ⟨"M", "a.txt", "a.txt", "mods/M/a.txt"⟩) (by decide)
  exact ⟨by decide, h.1, h.2.2.1⟩

/-- C6 (amended): each overlay overwrite of an existing filemap entry
increments the overlay-specific override count and adds the displaced
size to the overlay-specific byte total, both tracked separately from
the ordinary-source `overrides` counter; the displaced bytes also feed
the grand overridden-bytes total `size_overridden`, while the
overlay-specific count is reported on its own line and is not added to
the ordinary override count. -/
theorem c6_overlay_override_accounting (fs : FS) (fm : List (String × String))
    (ow : String) (st : FoldState) (p k : String) (old : FileEntry)
    (hns : firstSegIsShaderCache p = false)
    (hl : lookupKey k st.filemap = some old) :
    (processOverwriteFile fs fm ow st (p, k)).overwrite_overrides
        = st.overwrite_overrides + 1 ∧
    (processOverwriteFile fs fm ow st (p, k)).size_overridden_by_overwrite
        = st.size_overridden_by_overwrite + sizeOrZero fs old.full_source ∧
    (processOverwriteFile fs fm ow st (p, k)).size_overridden
        = st.size_overridden + sizeOrZero fs old.full_source ∧
    (processOverwriteFile fs fm ow st (p, k)).overrides = st.overrides := by
  refine ⟨?_, ?_, ?_, ?_⟩ <;> simp [processOverwriteFile, hns, hl]

def c6FS : FS :=
  { existing := ["mods/M", "ow", "mods/M/f.txt"],
    walks := [("mods/M", ["f.txt"]), ("ow", ["f.txt"])],
    dirWalks := [],
    sizes := [("mods/M/f.txt", 7)] }

/-- C6 counterexample: after one overlay overwrite the overlay-specific
count is 1 and its bytes (7) feed the grand overridden-bytes total,
but the only other override count reported in the summary, `overrides`,
stays 0 — the overlay-specific count feeds no grand override count. -/
theorem c6_overlay_override_accounting_counterexample :
    (build_filemap c6FS ["+M"] "mods" (some "ow")).overwrite_overrides = 1 ∧
    (build_filemap c6FS ["+M"] "mods" (some "ow")).size_overridden_by_overwrite = 7 ∧
    (build_filemap c6FS ["+M"] "mods" (some "ow")).size_overridden = 7 ∧
    (build_filemap c6FS ["+M"] "mods" (some "ow")).overrides = 0 :=
  ⟨by decide, by decide, by decide, by decide⟩

/-- C6 witness: the amended theorem applied at a concrete overlay
overwrite step. -/
theorem c6_overlay_override_accounting_witness :
    (processOverwriteFile c6FS [] "ow"
        { initFoldState with
          filemap := [("f.txt", ⟨"M", "f.txt", "f.txt", "mods/M/f.txt"⟩)] }
        ("f.txt", "f.txt")).overwrite_overrides = 1 ∧
    (processOverwriteFile c6FS [] "ow"
        { initFoldState with
          filemap := [("f.txt", ⟨"M", "f.txt", "f.txt", "mods/M/f.txt"⟩)] }
        ("f.txt", "f.txt")).size_overridden = 7 ∧
    (processOverwriteFile c6FS [] "ow"
        { initFoldState with
          filemap := [("f.txt", ⟨"M", "f.txt", "f.txt", "mods/M/f.txt"⟩)] }
        ("f.txt", "f.txt")).overrides = 0 := by
  have h := c6_overlay_override_accounting c6FS [] "ow"
    { initFoldState with
      filemap := [("f.txt", ⟨"M", "f.txt", "f.txt", "mods/M/f.txt"⟩)] }
    "f.txt" "f.txt" ⟨"M", "f.txt", "f.txt", "mods/M/f.txt"⟩ (by decide) (by decide)
  exact ⟨h.1, h.2.2.1, h.2.2.2⟩
